import Mathlib

/-!
Shallow embedding of the query-planning and metric-execution subsystem of the
`phonecall` repository (`src/mcp_orchestrator.py`, `src/colab/mcp_orchestrator.py`,
`src/llm_query_planner.py`), together with proofs settling the frozen claims
about it.

Conventions of the embedding:
* Python `datetime` values are modelled by `DT` (year, month, day, plus a
  `tmin` field standing for the time-of-day part, which only participates in
  comparisons).  Comparison of `datetime`s is chronological, i.e. lexicographic
  on these fields.
* Python exceptions are modelled with `Except PyErr`; code that cannot raise is
  embedded as a total function.
* `str.lower` is modelled by `pyLower`, covering the ASCII and Cyrillic
  letters, which are the alphabets occurring in this repository's data.
* Python dictionaries (`defaultdict(int)`, `Counter`, plain dicts) are modelled
  by insertion-ordered association lists; `bumpKey` is `d[k] += 1` (inserting
  at the end on first use, as Python dicts preserve insertion order).
-/

namespace Phonecall

/-! ### Strings: Python `lower`, substring containment (`in`), ordering -/

/-- Python `str.lower` on one character, restricted to the ASCII (`A`-`Z`) and
Cyrillic (`А`-`Я`, `Ё`) ranges that occur in this repository's tags and dates. -/
def pyCharLower (c : Char) : Char :=
  if 65 ≤ c.toNat ∧ c.toNat ≤ 90 then Char.ofNat (c.toNat + 32)
  else if 0x410 ≤ c.toNat ∧ c.toNat ≤ 0x42F then Char.ofNat (c.toNat + 32)
  else if c.toNat = 0x401 then Char.ofNat 0x451
  else c

/-- Python `str.lower`. -/
def pyLower (s : String) : String := ⟨s.data.map pyCharLower⟩

/-- Python substring test `needle in hay` on character lists. -/
def hasSub (needle : List Char) : List Char → Bool
  | [] => needle.isEmpty
  | c :: cs => needle.isPrefixOf (c :: cs) || hasSub needle cs

/-- Python `a in b` on strings (contiguous substring containment). -/
def pyInS (a b : String) : Bool := hasSub a.data b.data

/-- The fuzzy tag test used throughout the repository:
`a.lower() in b.lower() or b.lower() in a.lower()`. -/
def fuzzyMatch (a b : String) : Bool :=
  pyInS (pyLower a) (pyLower b) || pyInS (pyLower b) (pyLower a)

/-- Python `<` on strings, character-list lexicographic by code point. -/
def clLtB : List Char → List Char → Bool
  | _, [] => false
  | [], _ :: _ => true
  | a :: as, b :: bs =>
    if a.toNat < b.toNat then true
    else if b.toNat < a.toNat then false
    else clLtB as bs

/-- Python `<` on strings. -/
def strLtB (a b : String) : Bool := clLtB a.data b.data

/-! ### Number formatting (pieces of `strftime` and f-strings) -/

/-- Zero-pad to two digits (`%m`, `%d`, `{w:02d}`). -/
def pad2 (n : Nat) : String := if n < 10 then "0" ++ toString n else toString n

/-! ### The proleptic Gregorian calendar, as in CPython's `datetime` -/

def isLeap (y : Nat) : Bool := y % 4 == 0 && (y % 100 != 0 || y % 400 == 0)

def daysInMonth (y m : Nat) : Nat :=
  if m = 2 then (if isLeap y then 29 else 28)
  else if m = 4 ∨ m = 6 ∨ m = 9 ∨ m = 11 then 30
  else 31

/-- Days before January 1 of year `y` (CPython `_days_before_year`). -/
def daysBeforeYear (y : Nat) : Nat :=
  let p := y - 1
  p * 365 + p / 4 - p / 100 + p / 400

/-- Days in year `y` before the first of month `m`. -/
def daysBeforeMonth (y m : Nat) : Nat :=
  (List.range (m - 1)).foldl (fun a i => a + daysInMonth y (i + 1)) 0

/-- CPython `_ymd2ord`: proleptic Gregorian ordinal, day 1 = 0001-01-01. -/
def ymd2ord (y m d : Nat) : Nat := daysBeforeYear y + daysBeforeMonth y m + d

/-- CPython `_isoweek1monday`: ordinal of the Monday of ISO week 1 of year `y`. -/
def isoWeek1Monday (y : Nat) : Nat :=
  let firstday := ymd2ord y 1 1
  let firstweekday := (firstday + 6) % 7
  let week1monday := firstday - firstweekday
  if firstweekday > 3 then week1monday + 7 else week1monday

/-- A Python `datetime`: date fields plus `tmin`, an abstract stand-in for the
time-of-day part (it participates in comparisons only). -/
structure DT where
  year : Nat
  month : Nat
  day : Nat
  tmin : Nat := 0
  deriving DecidableEq, Repr

/-- Python `datetime` comparison `a <= b` (chronological, i.e. lexicographic on
the fields). -/
def dtLeB (a b : DT) : Bool :=
  if a.year ≠ b.year then a.year < b.year
  else if a.month ≠ b.month then a.month < b.month
  else if a.day ≠ b.day then a.day < b.day
  else a.tmin ≤ b.tmin

/-- CPython `datetime.isocalendar`, returning `(iso_year, iso_week)`. -/
def isocalendarYW (dt : DT) : Nat × Nat :=
  let today := ymd2ord dt.year dt.month dt.day
  let week1monday := isoWeek1Monday dt.year
  if today < week1monday then
    let y := dt.year - 1
    (y, (today - isoWeek1Monday y) / 7 + 1)
  else
    let week := (today - week1monday) / 7
    if 52 ≤ week then
      if isoWeek1Monday (dt.year + 1) ≤ today then (dt.year + 1, 1)
      else (dt.year, week + 1)
    else (dt.year, week + 1)

/-- Estimate-and-adjust inverse of `daysBeforeYear`: the year containing
ordinal day `n`. -/
def yearOfOrdinal (n : Nat) : Nat :=
  let y := n * 400 / 146097 + 1
  if n ≤ daysBeforeYear y then y - 1
  else if daysBeforeYear (y + 1) < n then y + 1
  else y

/-- Walk the months of year `y` to locate a 1-based day-of-year; returns
`(month, day)`.  Fuel-driven (12 suffices). -/
def monthFromDoy (y : Nat) : Nat → Nat × Nat → Nat × Nat
  | 0, acc => acc
  | fuel + 1, (m, rem) =>
    if rem ≤ daysInMonth y m then (m, rem)
    else monthFromDoy y fuel (m + 1, rem - daysInMonth y m)

/-- Date (at midnight) of a proleptic Gregorian ordinal. -/
def dtFromOrdinal (n : Nat) : DT :=
  let y := yearOfOrdinal n
  let doy := n - daysBeforeYear y
  let md := monthFromDoy y 12 (1, doy)
  ⟨y, md.1, md.2, 0⟩

/-- Python `dt - timedelta(days = k)` (the time-of-day part is unchanged). -/
def dtSubDays (d : DT) (k : Nat) : DT :=
  let d' := dtFromOrdinal (ymd2ord d.year d.month d.day - k)
  ⟨d'.year, d'.month, d'.day, d.tmin⟩

/-- `strftime('%Y-%m')` (glibc prints `%Y` unpadded). -/
def fmtYM (d : DT) : String := toString d.year ++ "-" ++ pad2 d.month

/-- `strftime('%Y-%m-%d')`. -/
def fmtYMD (d : DT) : String :=
  toString d.year ++ "-" ++ pad2 d.month ++ "-" ++ pad2 d.day

/-- The f-string `f"{year}-W{week:02d}"` over `isocalendar()`. -/
def fmtISOWeek (d : DT) : String :=
  let yw := isocalendarYW d
  toString yw.1 ++ "-W" ++ pad2 yw.2

/-- `strftime('%d.%m.%Y')`. -/
def fmtDMY (d : DT) : String :=
  pad2 d.day ++ "." ++ pad2 d.month ++ "." ++ toString d.year

/-! ### Data model (`mcp_orchestrator.py`) -/

/-- One call record, restricted to the fields the planner/executor reads
(`call_date` and `tags`; the remaining fields — `id`, `file_name`, `full_text`,
`summary`, `text_length`, `source_file` — are never consulted by the code the
claims are about). -/
structure Call where
  call_date : DT
  tags : List String
  deriving DecidableEq, Repr

/-- `class MetricType(Enum)`. -/
inductive MetricType where
  | COUNT_BY_TAG | TOP_N_TAGS | TAG_TRENDS | COMPARISON | SUMMARY_STATS
  deriving DecidableEq, Repr

/-- The validated `time_period` dict `{start, end, description}`.  `stop`
renders the source's `end` key (a Lean keyword). -/
structure TimePeriod where
  start : DT
  stop : DT
  description : String
  deriving DecidableEq, Repr

/-- `@dataclass AnalysisPlan` (the `additional_filters` field is never read by
the executor and is omitted). -/
structure AnalysisPlan where
  time_period : TimePeriod
  target_tags : List String
  metrics : List MetricType
  grouping : String := "month"
  comparison_tags : List String := []
  deriving DecidableEq, Repr

/-- Python exceptions that the modelled code can raise. -/
inductive PyErr where
  | attributeError | nameError | valueError
  deriving DecidableEq, Repr

/-! ### Association-list model of Python dicts -/

/-- `d[k] += 1` on a `defaultdict(int)` / `Counter`: update in place, or append
`(k, 1)` at the end on first use (Python dicts preserve insertion order). -/
def bumpKey : List (String × Nat) → String → List (String × Nat)
  | [], k => [(k, 1)]
  | (k', v) :: rest, k =>
    if k' == k then (k', v + 1) :: rest else (k', v) :: bumpKey rest k

/-- `d.get(k, 0)` on such a dict. -/
def lookupNat (k : String) (l : List (String × Nat)) : Nat :=
  match l.find? (fun p => p.1 == k) with
  | some p => p.2
  | none => 0

/-! ### `JSONDataLoader.load_all_calls` (`mcp_orchestrator.py` lines 57-104) -/

/-- The loader's mutable state: `self.calls_cache`. -/
structure LoaderState where
  calls_cache : Option (List Call)
  deriving DecidableEq, Repr

/-- Python truthiness of the `limit: int = None` argument (`None` and `0` are
falsy). -/
def limitTruthy : Option Nat → Bool
  | none => false
  | some n => n != 0

/-- `load_all_calls(limit)`.  `storage` stands for the records the JSON
directory successfully yields, in sorted-filename order (files that fail to
parse are skipped by the `try/except` and are not part of `storage`).  Returns
the call's result, the new state, and whether storage was read. -/
def load_all_calls (storage : List Call) (s : LoaderState) (limit : Option Nat) :
    List Call × LoaderState × Bool :=
  match s.calls_cache with
  | some cache =>
    ((if limitTruthy limit then cache.take (limit.getD 0) else cache), s, false)
  | none =>
    let loaded := if limitTruthy limit then storage.take (limit.getD 0) else storage
    (loaded, ⟨some loaded⟩, true)

/-! ### `DeepSeekPlanner` (`mcp_orchestrator.py` lines 216-410) -/

/-- `DeepSeekPlanner._load_available_tags` (`mcp_orchestrator.py` lines 224-252):
the configured tag vocabulary. -/
def availableTags : List String :=
  [ "низкое_качество_стирки_или_чистки"
  , "не_заменили_ковры_вовремя"
  , "клиент_хочет_добавить_ковры"
  , "клиент_хочет_меньше_ковров"
  , "погашение_долга"
  , "расторжение_договора"
  , "возобновление_услуг"
  , "долго_нет_ответа_на_заявку"
  , "лишняя_доставка"
  , "доставили_не_те_ковры"
  , "не_выставлен_вовремя_счет"
  , "неверная_сумма_в_счете"
  , "ковер_забрали_без_причины"
  , "забрали_не_тот_ковер"
  , "менеджер_нагрубил_клиенту"
  , "неоправданно_высокие_цены"
  , "неоправданный_рост_цен"
  , "новый_клиент_заключение_договора"
  , "консультация_или_уточнение_деталей"
  , "поменять_спецификации"
  , "менеджер_обещал_но_не_связался_с_клиентом"
  , "клиент_уходит_к_конкурентам"
  , "приостановить_услуги"
  , "ошибка_в_документах" ]

/-- The hardcoded fallback of `_validate_tags` in `mcp_orchestrator.py`. -/
def fallbackTag : String := "жалоба_качество_стирки"

/-- The body of `_validate_tags`' loop over one candidate: scan the vocabulary
and append the first fuzzy match (`break`), else drop the candidate. -/
def validStep (acc : List String) (tag : String) : List String :=
  match availableTags.find? (fun available_tag => fuzzyMatch tag available_tag) with
  | some available_tag => acc ++ [available_tag]
  | none => acc

/-- `DeepSeekPlanner._validate_tags` (`mcp_orchestrator.py` lines 362-372):
each candidate is rewritten to the first vocabulary entry it fuzzily matches
(`break` after the first hit); non-matching candidates are dropped;
`valid_tags or [fallback]`. -/
def validateTags (tags : List String) : List String :=
  let valid := tags.foldl validStep []
  if valid.isEmpty then [fallbackTag] else valid

/-- The raw `time_period` mapping handed to `_parse_time_period`:
`start`/`end` as produced by `plan_data.get(...)` (absent or JSON-null ↦
`none`), `description` via `.get('description', '')`. -/
structure PeriodData where
  start : Option String
  stop : Option String
  description : String
  deriving DecidableEq, Repr

/-- Python truthiness of `period_data.get('start')` (`None` and `''` falsy). -/
def strTruthy : Option String → Bool
  | none => false
  | some s => !(s == "")

/-- `datetime.fromisoformat` on a date string, modelled for the
`YYYY-MM-DD` shape the planner prompt requests; anything else raises
`ValueError`. -/
def fromIsoFormat (s : String) : Except PyErr DT :=
  match s.data with
  | [y1, y2, y3, y4, '-', m1, m2, '-', d1, d2] =>
    if y1.isDigit && y2.isDigit && y3.isDigit && y4.isDigit &&
       m1.isDigit && m2.isDigit && d1.isDigit && d2.isDigit then
      let y := (y1.toNat - 48) * 1000 + (y2.toNat - 48) * 100 +
               (y3.toNat - 48) * 10 + (y4.toNat - 48)
      let m := (m1.toNat - 48) * 10 + (m2.toNat - 48)
      let d := (d1.toNat - 48) * 10 + (d2.toNat - 48)
      if 1 ≤ m && m ≤ 12 && 1 ≤ d && d ≤ daysInMonth y m && 1 ≤ y then
        .ok ⟨y, m, d, 0⟩
      else .error .valueError
    else .error .valueError
  | _ => .error .valueError

/-- `DeepSeekPlanner._parse_time_period` of `mcp_orchestrator.py` (lines
327-360).  The default-window block of that function is commented out in the
source, so `start`/`end` are only assigned inside the `if period_data.get(...)`
guards; reaching the final `return` with either still unassigned raises
`UnboundLocalError` (a `NameError`), and `datetime.fromisoformat` on a
malformed string raises `ValueError`. -/
def mcpParseTimePeriod (pd : PeriodData) : Except PyErr TimePeriod := do
  let startOpt : Option DT ←
    if strTruthy pd.start then (fromIsoFormat (pd.start.getD "")).map some
    else pure none
  let endOpt : Option DT ←
    if strTruthy pd.stop then (fromIsoFormat (pd.stop.getD "")).map some
    else pure none
  match startOpt, endOpt with
  | some s, some e =>
    pure { start := s, stop := e,
           description :=
             if pd.description == "" then
               "с " ++ fmtDMY s ++ " по " ++ fmtDMY e
             else pd.description }
  | _, _ => .error .nameError

/-- `DeepSeekPlanner._parse_time_period` of `colab/mcp_orchestrator.py` (lines
492-531): initial default `[today - 30 days, today]`, description-keyword
overrides, then explicit ISO dates override when present and parseable
(`try/except: pass` keeps the earlier value on a parse failure).  Total: this
variant never raises. -/
def colabParseTimePeriod (today : DT) (pd : PeriodData) : TimePeriod :=
  let descLower := pyLower pd.description
  let p0 : DT × DT :=
    if pyInS "последние 6 месяцев" descLower then (dtSubDays today 180, today)
    else if pyInS "этот месяц" descLower then (⟨today.year, today.month, 1, 0⟩, today)
    else if pyInS "этот год" descLower then (⟨today.year, 1, 1, 0⟩, today)
    else if pyInS "первый квартал 2024" descLower then (⟨2024, 1, 1, 0⟩, ⟨2024, 3, 31, 0⟩)
    else if pyInS "прошлый год" descLower then
      (⟨today.year - 1, 1, 1, 0⟩, ⟨today.year - 1, 12, 31, 0⟩)
    else (dtSubDays today 30, today)
  let start :=
    if strTruthy pd.start then
      match fromIsoFormat (pd.start.getD "") with
      | .ok d => d
      | .error _ => p0.1
    else p0.1
  let stop :=
    if strTruthy pd.stop then
      match fromIsoFormat (pd.stop.getD "") with
      | .ok d => d
      | .error _ => p0.2
    else p0.2
  { start := start, stop := stop,
    description :=
      if pd.description == "" then "с " ++ fmtDMY start ++ " по " ++ fmtDMY stop
      else pd.description }

/-! ### `JSONQueryExecutor` (`mcp_orchestrator.py` lines 415-551) -/

/-- `_filter_calls_by_period` (lines 465-476): keep calls with
`start_date <= call_date <= end_date` (both bounds inclusive). -/
def filterCallsByPeriod (calls : List Call) (period : TimePeriod) : List Call :=
  calls.filter (fun call =>
    dtLeB period.start call.call_date && dtLeB call.call_date period.stop)

/-- `_count_by_tag` (lines 478-490): for each call and each of its tag
occurrences, scan `target_tags` in order and on the first fuzzy match increment
that target's counter and `break`. -/
def countTagStep (target_tags : List String) (counts : List (String × Nat))
    (tag : String) : List (String × Nat) :=
  match target_tags.find? (fun target => fuzzyMatch target tag) with
  | some target => bumpKey counts target
  | none => counts

/-- See `countTagStep` for the inner loop body. -/
def countByTag (calls : List Call) (target_tags : List String) :
    List (String × Nat) :=
  calls.foldl (fun counts call => call.tags.foldl (countTagStep target_tags) counts) []

/-- The per-call grouping key of `_tag_trends`: `strftime('%Y-%m')` for
`month`, `f"{year}-W{week:02d}"` over `isocalendar()` for `week`, and
`strftime('%Y-%m-%d')` for everything else (the `else` branch is `day`). -/
def periodKey (grouping : String) (d : DT) : String :=
  if grouping == "month" then fmtYM d
  else if grouping == "week" then fmtISOWeek d
  else fmtYMD d

/-- Stable insertion into a list sorted by `le`: the new element goes before
the first entry it is `le`-related to, hence after earlier equal entries. -/
def insBy (le : α → α → Bool) (x : α) : List α → List α
  | [] => [x]
  | y :: ys => if le x y then x :: y :: ys else y :: insBy le x ys

/-- Stable insertion sort; models both Python's `sorted` (which is stable) and
`Counter.most_common` (stable via `heapq.nlargest`'s decreasing tiebreak
index). -/
def sortBy (le : α → α → Bool) : List α → List α
  | [] => []
  | x :: xs => insBy le x (sortBy le xs)

/-- The comparison `sorted(period_counts.items())` uses: tuple order on
`(key, count)` pairs with distinct keys, i.e. `key <= key` string order. -/
def keyLe (p q : String × Nat) : Bool := strLtB p.1 q.1 || p.1 == q.1

/-- The nested `trends` mapping of `_tag_trends`: an insertion-ordered
association list target ↦ (period_key ↦ count). -/
def bumpTrend : List (String × List (String × Nat)) → String → String →
    List (String × List (String × Nat))
  | [], target, key => [(target, [(key, 1)])]
  | (t', kc) :: rest, target, key =>
    if t' == target then (t', bumpKey kc key) :: rest
    else (t', kc) :: bumpTrend rest target key

/-- Body of `_tag_trends`' loop over one tag occurrence of a call whose
grouping key is `key`: credit the first fuzzily matching target. -/
def trendTagStep (target_tags : List String) (key : String)
    (trends : List (String × List (String × Nat))) (tag : String) :
    List (String × List (String × Nat)) :=
  match target_tags.find? (fun target => fuzzyMatch target tag) with
  | some target => bumpTrend trends target key
  | none => trends

/-- Body of `_tag_trends`' loop over one call: compute the grouping key, then
process each tag occurrence. -/
def trendCallStep (target_tags : List String) (grouping : String)
    (trends : List (String × List (String × Nat))) (call : Call) :
    List (String × List (String × Nat)) :=
  call.tags.foldl (trendTagStep target_tags (periodKey grouping call.call_date)) trends

/-- `_tag_trends` (lines 492-525): early `{}` on empty `target_tags`; per call
compute the grouping key, per tag occurrence credit the first fuzzily matching
target; finally `sorted(period_counts.items())` per target. -/
def tagTrends (calls : List Call) (target_tags : List String) (grouping : String) :
    List (String × List (String × Nat)) :=
  if target_tags.isEmpty then []
  else
    let trends := calls.foldl (trendCallStep target_tags grouping) []
    trends.map (fun p => (p.1, sortBy keyLe p.2))

/-- The `Counter` of `_top_n_tags`: literal per-occurrence tally of every tag
string across all calls, insertion-ordered (first-encounter order). -/
def tallyTags (calls : List Call) : List (String × Nat) :=
  calls.foldl (fun counter call => call.tags.foldl bumpKey counter) []

/-- The comparison `Counter.most_common` sorts by: count, descending. -/
def countGe (p q : String × Nat) : Bool := q.2 ≤ p.2

/-- `_top_n_tags` (lines 527-537): `Counter.most_common(n)` — stable descending
sort by count, truncated to `n`. -/
def topNTags (calls : List Call) (n : Nat) : List (String × Nat) :=
  (sortBy countGe (tallyTags calls)).take n

/-- Scan of `for target in target_tags` inside `_count_by_tag` when called from
`_compare_tags`, where the padded list may hold `None`: evaluating
`None.lower()` raises `AttributeError`. -/
def firstMatchPadded (tag : String) : List (Option String) → Except PyErr (Option String)
  | [] => .ok none
  | none :: _ => .error .attributeError
  | some target :: rest =>
    if fuzzyMatch target tag then .ok (some target) else firstMatchPadded tag rest

/-- `_count_by_tag` as invoked by `_compare_tags` (targets possibly padded with
`None`).  The crash happens before a `None` key is ever inserted, so counts are
keyed by plain strings. -/
def countPaddedStep (target_tags : List (Option String))
    (counts : List (String × Nat)) (tag : String) :
    Except PyErr (List (String × Nat)) := do
  match (← firstMatchPadded tag target_tags) with
  | some target => pure (bumpKey counts target)
  | none => pure counts

/-- See `countPaddedStep` for the inner loop body. -/
def countByTagPadded (calls : List Call) (target_tags : List (Option String)) :
    Except PyErr (List (String × Nat)) :=
  calls.foldlM (fun counts call => call.tags.foldlM (countPaddedStep target_tags) counts) []

/-- `counts.get(t, 0)` where `t` may be the padded `None` (never a key). -/
def lookupPadded (k : Option String) (counts : List (String × Nat)) : Nat :=
  match k with
  | none => 0
  | some s => lookupNat s counts

/-- The comparison record `_compare_tags` returns. -/
structure CompareResult where
  tag1 : Option String × Nat
  tag2 : Option String × Nat
  total_calls : Nat
  ratio : Rat
  deriving DecidableEq, Repr

/-- `_compare_tags` (lines 539-551): pad to two entries with `None`, count over
the first two, and compute `ratio = count1 / count2 if count2 > 0 else 0`
(the division is modelled over `ℚ`). -/
def compareTags (calls : List Call) (tags : List String) :
    Except PyErr CompareResult := do
  let padded : List (Option String) :=
    if tags.length < 2 then
      tags.map some ++ List.replicate (2 - tags.length) none
    else tags.map some
  let pair := padded.take 2
  let counts ← countByTagPadded calls pair
  let c1 := lookupPadded (pair.getD 0 none) counts
  let c2 := lookupPadded (pair.getD 1 none) counts
  pure { tag1 := (pair.getD 0 none, c1)
       , tag2 := (pair.getD 1 none, c2)
       , total_calls := calls.length
       , ratio := if 0 < c2 then (c1 : Rat) / (c2 : Rat) else 0 }

/-- The `summary_stats` block. -/
structure SummaryStats where
  total_calls : Nat
  period : String
  date_range : String
  deriving DecidableEq, Repr

/-- The `results` dict `execute_plan` assembles; a key is `some` exactly when
the corresponding metric was requested (`error` is set only by the colab
variant's empty-collection short-circuit).  The colab variant's extra
`data_source` entry in `summary_stats` is omitted (it depends only on the
loader's Drive configuration). -/
structure ExecResult where
  count_by_tag : Option (List (String × Nat)) := none
  tag_trends : Option (List (String × List (String × Nat))) := none
  top_n_tags : Option (List (String × Nat)) := none
  comparison : Option CompareResult := none
  error : Option String := none
  summary_stats : Option SummaryStats := none
  deriving DecidableEq, Repr

/-- `f"{start.strftime('%Y-%m-%d')} - {end.strftime('%Y-%m-%d')}"`. -/
def fmtRange (p : TimePeriod) : String := fmtYMD p.start ++ " - " ++ fmtYMD p.stop

/-- One iteration of the metric dispatch loop in `execute_plan`
(`MetricType.SUMMARY_STATS` matches no branch and falls through). -/
def applyMetric (fc : List Call) (target_tags comparison_tags : List String)
    (grouping : String) (r : ExecResult) :
    MetricType → Except PyErr ExecResult
  | .COUNT_BY_TAG => pure { r with count_by_tag := some (countByTag fc target_tags) }
  | .TAG_TRENDS => pure { r with tag_trends := some (tagTrends fc target_tags grouping) }
  | .TOP_N_TAGS => pure { r with top_n_tags := some (topNTags fc 5) }
  | .COMPARISON => do
    let c ← compareTags fc comparison_tags
    pure { r with comparison := some c }
  | .SUMMARY_STATS => pure r

/-- `plan.comparison_tags or plan.target_tags[:2]` (an empty/None list is
falsy). -/
def comparisonTagsOf (plan : AnalysisPlan) : List String :=
  if plan.comparison_tags.isEmpty then plan.target_tags.take 2
  else plan.comparison_tags

/-- `JSONQueryExecutor.execute_plan` (`mcp_orchestrator.py` lines 421-463):
filter once by period, dispatch every requested metric on the filtered calls,
then attach `summary_stats`.  `allCalls` is what `load_all_calls()` returned.
This variant has no empty-collection short-circuit. -/
def executePlan (allCalls : List Call) (plan : AnalysisPlan) :
    Except PyErr ExecResult := do
  let filtered_calls := filterCallsByPeriod allCalls plan.time_period
  let r ← plan.metrics.foldlM
    (applyMetric filtered_calls plan.target_tags (comparisonTagsOf plan) plan.grouping)
    {}
  let stats := SummaryStats.mk filtered_calls.length plan.time_period.description
    (fmtRange plan.time_period)
  pure { r with summary_stats := some stats }

/-- `JSONQueryExecutor.execute_plan` of `colab/mcp_orchestrator.py` (lines
594-646): identical dispatch, but with the empty-collection short-circuit that
returns `{'error': ..., 'summary_stats': {'total_calls': 0, ...}}` before any
metric is computed. -/
def colabExecutePlan (allCalls : List Call) (plan : AnalysisPlan) :
    Except PyErr ExecResult := do
  if allCalls.isEmpty then
    let stats := SummaryStats.mk 0 plan.time_period.description (fmtRange plan.time_period)
    pure { error := some "Нет данных для анализа", summary_stats := some stats }
  else
    let filtered_calls := filterCallsByPeriod allCalls plan.time_period
    let r ← plan.metrics.foldlM
      (applyMetric filtered_calls plan.target_tags (comparisonTagsOf plan) plan.grouping)
      {}
    let stats := SummaryStats.mk filtered_calls.length plan.time_period.description
      (fmtRange plan.time_period)
    pure { r with summary_stats := some stats }

/-! ### Concrete inputs used by witnesses and counterexamples -/

/-- A call carrying the same tag string twice (tag lists are not deduplicated
by design; see the CallRecord data-model notes). -/
def dupTagCall : Call := ⟨⟨2024, 3, 7, 0⟩, ["погашение_долга", "погашение_долга"]⟩

/-- A call whose tag matches no Latin-letter target. -/
def c6Call : Call := ⟨⟨2024, 5, 2, 0⟩, ["погашение_долга"]⟩

/-- Two distinct records for the loader demos. -/
def demoCallA : Call := ⟨⟨2024, 1, 5, 0⟩, ["долго_нет_ответа"]⟩

/-- Second loader demo record. -/
def demoCallB : Call := ⟨⟨2024, 2, 10, 0⟩, ["долго_нет_ответа"]⟩

/-- Third demo record (different tag, inside February). -/
def demoCallC : Call := ⟨⟨2024, 2, 20, 0⟩, ["погашение_долга"]⟩

/-- A call dated outside the demo period. -/
def demoCallLate : Call := ⟨⟨2025, 6, 1, 0⟩, ["погашение_долга"]⟩

/-- The demo period `[2024-01-01, 2024-12-31]`. -/
def demoPeriod : TimePeriod := ⟨⟨2024, 1, 1, 0⟩, ⟨2024, 12, 31, 0⟩, "2024 год"⟩

/-- Calls with a count tie: tags `b` and `a` both occur twice, `b` first. -/
def tieCalls : List Call :=
  [ ⟨⟨2024, 1, 1, 0⟩, ["b", "a"]⟩
  , ⟨⟨2024, 1, 2, 0⟩, ["a", "b", "c"]⟩ ]

/-- A demo plan: count the «долго_нет_ответа_на_заявку» calls of 2024 by month. -/
def demoPlan : AnalysisPlan :=
  { time_period := demoPeriod
  , target_tags := ["долго_нет_ответа_на_заявку"]
  , metrics := [.COUNT_BY_TAG]
  , grouping := "month" }

/-- What `execute_plan` returns on `[demoCallA, demoCallLate]` and `demoPlan`
(only `demoCallA` falls inside the period). -/
def demoExecResult : ExecResult :=
  { count_by_tag := some [("долго_нет_ответа_на_заявку", 1)]
  , summary_stats := some ⟨1, "2024 год", "2024-01-01 - 2024-12-31"⟩ }

/-- What the `mcp_orchestrator.py` `execute_plan` returns on an empty
collection and `demoPlan`: the metric IS computed (over zero calls) and there
is no error entry. -/
def emptyExecResult : ExecResult :=
  { count_by_tag := some []
  , summary_stats := some ⟨0, "2024 год", "2024-01-01 - 2024-12-31"⟩ }

/-- Total of all counters of a counts dict. -/
def sumCounts (l : List (String × Nat)) : Nat := (l.map Prod.snd).sum

/-- The per-target bucket invariant carried through the trends fold: every
bucket count is at least one and every bucket key satisfies `K`, and bucket
keys are distinct. -/
def TrendsInv (K : String → Prop) (tr : List (String × List (String × Nat))) : Prop :=
  ∀ p ∈ tr, (∀ x ∈ p.2, 1 ≤ x.2 ∧ K x.1) ∧ (p.2.map Prod.fst).Nodup

/-! ## Helper lemmas -/

/-- Folding `validStep` accumulates the `filterMap` of first vocabulary hits. -/
theorem foldl_validStep (l : List String) (acc : List String) :
    l.foldl validStep acc
      = acc ++ l.filterMap (fun tag =>
          availableTags.find? (fun av => fuzzyMatch tag av)) := by
  induction l generalizing acc with
  | nil => simp
  | cons x xs ih =>
    cases hfx : availableTags.find? (fun av => fuzzyMatch x av) <;>
      simp [List.foldl_cons, validStep, hfx, ih, List.filterMap_cons]

/-- Looking up after a bump: the bumped key gains one, others are unchanged. -/
theorem lookup_bumpKey (l : List (String × Nat)) (j k : String) :
    lookupNat k (bumpKey l j) = lookupNat k l + (if j = k then 1 else 0) := by
  induction l with
  | nil =>
    by_cases hjk : j = k <;> simp [bumpKey, lookupNat, hjk]
  | cons p rest ih =>
    obtain ⟨a, v⟩ := p
    by_cases haj : a = j
    · have hb : bumpKey ((a, v) :: rest) j = (a, v + 1) :: rest := by
        simp [bumpKey, haj]
      rw [hb]
      by_cases hak : a = k
      · have hjk : j = k := haj ▸ hak
        simp [lookupNat, List.find?_cons, hak, hjk]
      · have hjk : ¬ j = k := fun h => hak (haj.trans h)
        simp [lookupNat, List.find?_cons, hak, hjk]
    · have hb : bumpKey ((a, v) :: rest) j = (a, v) :: bumpKey rest j := by
        simp [bumpKey, haj]
      rw [hb]
      by_cases hak : a = k
      · have hjk : ¬ j = k := fun h => haj (hak.trans h.symm)
        simp [lookupNat, List.find?_cons, hak, hjk]
      · have hpk : ((a : String) == k) = false := by simp [hak]
        simp only [lookupNat, List.find?_cons, hpk] at ih ⊢
        simpa using ih

/-- A bump adds exactly one to the total of all counters. -/
theorem sumCounts_bumpKey (l : List (String × Nat)) (j : String) :
    sumCounts (bumpKey l j) = sumCounts l + 1 := by
  induction l with
  | nil => simp [bumpKey, sumCounts]
  | cons p rest ih =>
    obtain ⟨a, v⟩ := p
    by_cases h : a = j
    · have hb : bumpKey ((a, v) :: rest) j = (a, v + 1) :: rest := by
        simp [bumpKey, h]
      rw [hb]
      simp [sumCounts]
      omega
    · have hb : bumpKey ((a, v) :: rest) j = (a, v) :: bumpKey rest j := by
        simp [bumpKey, h]
      rw [hb]
      simp only [sumCounts, List.map_cons, List.sum_cons] at ih ⊢
      omega

/-- Folding `bumpKey` over a key stream: each key's counter ends at its
occurrence count in the stream. -/
theorem lookup_foldl_bumpKey (ks : List String) (l0 : List (String × Nat)) (k : String) :
    lookupNat k (ks.foldl bumpKey l0) = lookupNat k l0 + ks.count k := by
  induction ks generalizing l0 with
  | nil => simp
  | cons j ks ih =>
    rw [List.foldl_cons, ih, lookup_bumpKey]
    by_cases hjk : j = k
    · simp [hjk, List.count_cons]
      omega
    · have hb : (j == k) = false := by simp [hjk]
      simp [List.count_cons, hb, hjk]

/-- Folding `bumpKey` over a key stream adds the stream's length to the total. -/
theorem sumCounts_foldl_bumpKey (ks : List String) (l0 : List (String × Nat)) :
    sumCounts (ks.foldl bumpKey l0) = sumCounts l0 + ks.length := by
  induction ks generalizing l0 with
  | nil => simp
  | cons j ks ih =>
    rw [List.foldl_cons, ih, sumCounts_bumpKey, List.length_cons]
    omega

/-- `_count_by_tag`'s nested loops are one fold over the stream of all
(call, tag) occurrences. -/
theorem countByTag_eq_foldl_flatten (calls : List Call) (ts : List String) :
    countByTag calls ts
      = ((calls.map Call.tags).flatten).foldl (countTagStep ts) [] := by
  rw [countByTag, List.foldl_flatten, List.foldl_map]

/-- The occurrence fold only bumps: it equals folding `bumpKey` over the
first-matching-target stream. -/
theorem foldl_countTagStep (ts : List String) (occs : List String)
    (l0 : List (String × Nat)) :
    occs.foldl (countTagStep ts) l0
      = (occs.filterMap
          (fun tag => ts.find? (fun target => fuzzyMatch target tag))).foldl bumpKey l0 := by
  induction occs generalizing l0 with
  | nil => simp
  | cons tag occs ih =>
    cases hf : ts.find? (fun target => fuzzyMatch target tag) with
    | none => simp [List.foldl_cons, countTagStep, hf, ih, List.filterMap_cons]
    | some target => simp [List.foldl_cons, countTagStep, hf, ih, List.filterMap_cons]

/-- Occurrences of `t` in the first-match stream are the occurrences whose
first match is exactly `t`. -/
theorem count_filterMap_firstMatch (ts : List String) (occs : List String) (t : String) :
    (occs.filterMap
        (fun tag => ts.find? (fun target => fuzzyMatch target tag))).count t
      = (occs.filter
          (fun tag => ts.find? (fun target => fuzzyMatch target tag) == some t)).length := by
  induction occs with
  | nil => simp
  | cons tag occs ih =>
    cases hf : ts.find? (fun target => fuzzyMatch target tag) with
    | none => simp [List.filterMap_cons, List.filter_cons, hf, ih]
    | some target =>
      by_cases ht : target = t
      · subst ht
        simp [List.filterMap_cons, List.filter_cons, hf, ih, List.count_cons]
      · have h1 : (target == t) = false := by simp [ht]
        have h2 : (some target == some t) = false := by simp [ht]
        simp [List.filterMap_cons, List.filter_cons, hf, ih, List.count_cons, h1, h2]

/-- Characterization of the metric dispatch loop of `execute_plan`: when the
fold succeeds, every requested metric key holds exactly the metric function
applied to the (already filtered) calls, and unrequested keys are untouched. -/
theorem foldlM_applyMetric_spec (fc : List Call) (tt ct : List String) (g : String)
    (ms : List MetricType) (r0 r : ExecResult)
    (h : List.foldlM (applyMetric fc tt ct g) r0 ms = .ok r) :
    r.count_by_tag = (if MetricType.COUNT_BY_TAG ∈ ms
        then some (countByTag fc tt) else r0.count_by_tag)
  ∧ r.tag_trends = (if MetricType.TAG_TRENDS ∈ ms
        then some (tagTrends fc tt g) else r0.tag_trends)
  ∧ r.top_n_tags = (if MetricType.TOP_N_TAGS ∈ ms
        then some (topNTags fc 5) else r0.top_n_tags)
  ∧ (if MetricType.COMPARISON ∈ ms
        then ∃ c, compareTags fc ct = .ok c ∧ r.comparison = some c
        else r.comparison = r0.comparison)
  ∧ r.error = r0.error ∧ r.summary_stats = r0.summary_stats := by
  induction ms generalizing r0 with
  | nil =>
    rw [List.foldlM_nil] at h
    injection h with h
    subst h
    simp
  | cons m ms ih =>
    rw [List.foldlM_cons] at h
    cases m with
    | COUNT_BY_TAG =>
      have h2 : List.foldlM (applyMetric fc tt ct g)
          { r0 with count_by_tag := some (countByTag fc tt) } ms = .ok r := h
      have := ih _ h2
      simp only [List.mem_cons] at *
      refine ⟨?_, ?_, ?_, ?_, ?_, ?_⟩ <;> simp_all
    | TAG_TRENDS =>
      have h2 : List.foldlM (applyMetric fc tt ct g)
          { r0 with tag_trends := some (tagTrends fc tt g) } ms = .ok r := h
      have := ih _ h2
      simp only [List.mem_cons] at *
      refine ⟨?_, ?_, ?_, ?_, ?_, ?_⟩ <;> simp_all
    | TOP_N_TAGS =>
      have h2 : List.foldlM (applyMetric fc tt ct g)
          { r0 with top_n_tags := some (topNTags fc 5) } ms = .ok r := h
      have := ih _ h2
      simp only [List.mem_cons] at *
      refine ⟨?_, ?_, ?_, ?_, ?_, ?_⟩ <;> simp_all
    | SUMMARY_STATS =>
      have h2 : List.foldlM (applyMetric fc tt ct g) r0 ms = .ok r := h
      have := ih _ h2
      simp only [List.mem_cons] at *
      refine ⟨?_, ?_, ?_, ?_, ?_, ?_⟩ <;> simp_all
    | COMPARISON =>
      cases hc : compareTags fc ct with
      | error e =>
        exfalso
        have h2 : (Except.error e : Except PyErr ExecResult) = .ok r := by
          have hstep : applyMetric fc tt ct g r0 .COMPARISON
              = (.error e : Except PyErr ExecResult) := by
            simp only [applyMetric, hc]
            rfl
          rw [hstep] at h
          exact h
        cases h2
      | ok c =>
        have hstep : applyMetric fc tt ct g r0 .COMPARISON
            = (.ok { r0 with comparison := some c } : Except PyErr ExecResult) := by
          simp only [applyMetric, hc]
          rfl
        rw [hstep] at h
        have h2 : List.foldlM (applyMetric fc tt ct g)
            { r0 with comparison := some c } ms = .ok r := h
        have := ih _ h2
        simp only [List.mem_cons] at *
        obtain ⟨e1, e2, e3, e4, e5, e6⟩ := this
        refine ⟨by simp_all, by simp_all, by simp_all, ?_, by simp_all, by simp_all⟩
        by_cases hmem : MetricType.COMPARISON ∈ ms
        · simp only [hmem, if_pos, or_true, true_or, if_true] at e4 ⊢
          exact ⟨e4.choose, hc.symm.trans e4.choose_spec.1, e4.choose_spec.2⟩
        · simp only [hmem, if_neg, if_false] at e4
          simp only [true_or, if_true]
          exact ⟨c, rfl, by simp_all⟩

/-! ## Claim C1: `_validate_tags` -/

/-- Claim C1, counterexample: on an empty candidate list `_validate_tags`
returns exactly the hardcoded fallback tag, but in `mcp_orchestrator.py` that
fallback is not itself a member of the configured tag vocabulary, so the
returned list is not vocabulary-only as the claim states. -/
theorem validateTags_fallback_not_in_vocabulary :
    validateTags [] = [fallbackTag] ∧ fallbackTag ∉ availableTags := by
  decide

/-- Claim C1 (amended): `_validate_tags` always returns a non-empty list; each
candidate is rewritten to the first vocabulary entry it fuzzily matches and
non-matching candidates are dropped; every element of the result is a
vocabulary member or the fixed fallback tag; and when no candidate matches,
the result is exactly the fallback tag (which, in this variant, is not a
vocabulary member). -/
theorem validateTags_spec (tags : List String) :
    validateTags tags ≠ []
  ∧ validateTags tags =
      (if (tags.filterMap (fun tag =>
            availableTags.find? (fun av => fuzzyMatch tag av))).isEmpty
       then [fallbackTag]
       else tags.filterMap (fun tag =>
            availableTags.find? (fun av => fuzzyMatch tag av)))
  ∧ (∀ t, t ∈ validateTags tags → t ∈ availableTags ∨ t = fallbackTag)
  ∧ ((∀ tag ∈ tags, availableTags.find? (fun av => fuzzyMatch tag av) = none) →
      validateTags tags = [fallbackTag]) := by
  have hfold : validateTags tags =
      (if (tags.filterMap (fun tag =>
            availableTags.find? (fun av => fuzzyMatch tag av))).isEmpty
       then [fallbackTag]
       else tags.filterMap (fun tag =>
            availableTags.find? (fun av => fuzzyMatch tag av))) := by
    unfold validateTags
    rw [foldl_validStep tags []]
    simp
  refine ⟨?_, hfold, ?_, ?_⟩
  · rw [hfold]
    split
    · simp
    · rename_i hne
      intro hnil
      rw [hnil] at hne
      simp at hne
  · intro t ht
    rw [hfold] at ht
    split at ht
    · right
      exact List.mem_singleton.mp ht
    · left
      obtain ⟨tag, _, hfind⟩ := List.mem_filterMap.mp ht
      exact List.mem_of_find?_eq_some hfind
  · intro hnone
    rw [hfold]
    have : tags.filterMap (fun tag =>
        availableTags.find? (fun av => fuzzyMatch tag av)) = [] := by
      apply List.filterMap_eq_nil_iff.mpr
      intro tag htag
      simp [hnone tag htag]
    simp [this]

/-- Claim C1, witness for `validateTags_spec`: a candidate list whose single
entry matches nothing is rewritten to the fallback. -/
theorem validateTags_spec_witness :
    validateTags ["zzz"] = [fallbackTag] :=
  (validateTags_spec ["zzz"]).2.2.2 (by decide)

/-! ## Claim C9: `load_all_calls` caching -/

/-- Claim C9: after a first `load_all_calls()` the collection is cached; a
second `load_all_calls()` returns the identical collection and leaves the
cache untouched without reading storage (its result does not depend on what
the storage now holds), and no later call with any `limit` mutates the cache. -/
theorem load_all_calls_cached (storage storage2 : List Call) (limit : Option Nat) :
    (load_all_calls storage2 (load_all_calls storage ⟨none⟩ none).2.1 none).1
      = (load_all_calls storage ⟨none⟩ none).1
  ∧ (load_all_calls storage2 (load_all_calls storage ⟨none⟩ none).2.1 none).2.1
      = (load_all_calls storage ⟨none⟩ none).2.1
  ∧ (load_all_calls storage2 (load_all_calls storage ⟨none⟩ none).2.1 none).2.2 = false
  ∧ (load_all_calls storage2 (load_all_calls storage ⟨none⟩ none).2.1 limit).2.1
      = (load_all_calls storage ⟨none⟩ none).2.1 := by
  refine ⟨?_, ?_, ?_, ?_⟩ <;> simp [load_all_calls, limitTruthy]

/-! ## Claim C10: a limited first load truncates the cache permanently -/

/-- Claim C10, counterexample: `limit = 0` is "a limit smaller than the number
of available records", but Python's `if limit` treats `0` as falsy, so the
first call loads and caches the whole collection — not "only the first k
records". -/
theorem load_all_calls_limit_zero_counterexample :
    (load_all_calls [demoCallA] ⟨none⟩ (some 0)).1.length = 1
  ∧ ¬ ((load_all_calls [demoCallA] ⟨none⟩ (some 0)).1.length ≤ 0) := by
  decide

/-- Claim C10 (amended): for a nonzero limit `k` smaller than the number of
available records, the first call returns and caches exactly the first `k`
records, and every subsequent call — whatever its limit and whatever storage
now holds — reads nothing, returns a prefix of those `k` records (hence at
most `k`), and leaves the cache unchanged. -/
theorem load_all_calls_limit_truncates (storage : List Call) (k : Nat)
    (h1 : 1 ≤ k) (h2 : k < storage.length) (storage2 : List Call) (limit : Option Nat) :
    (load_all_calls storage ⟨none⟩ (some k)).1 = storage.take k
  ∧ (load_all_calls storage ⟨none⟩ (some k)).2.1 = ⟨some (storage.take k)⟩
  ∧ (load_all_calls storage ⟨none⟩ (some k)).1.length = k
  ∧ (load_all_calls storage2 ⟨some (storage.take k)⟩ limit).2.2 = false
  ∧ (load_all_calls storage2 ⟨some (storage.take k)⟩ limit).1.length ≤ k
  ∧ (∃ rest, storage.take k
        = (load_all_calls storage2 ⟨some (storage.take k)⟩ limit).1 ++ rest)
  ∧ (load_all_calls storage2 ⟨some (storage.take k)⟩ limit).2.1
      = ⟨some (storage.take k)⟩ := by
  have hk : (k != 0) = true := by
    simpa using Nat.pos_iff_ne_zero.mp h1
  have htake : (storage.take k).length = k := by
    simp [List.length_take]
    omega
  refine ⟨?_, ?_, ?_, ?_, ?_, ?_, ?_⟩
  · simp [load_all_calls, limitTruthy, hk]
  · simp [load_all_calls, limitTruthy, hk]
  · simp [load_all_calls, limitTruthy, hk, htake]
  · simp [load_all_calls]
  · by_cases ht : limitTruthy limit
    · simp only [load_all_calls, ht, if_pos]
      calc ((storage.take k).take (limit.getD 0)).length
          ≤ (storage.take k).length :=
            ((storage.take k).take_sublist (limit.getD 0)).length_le
        _ = k := htake
    · simp only [load_all_calls, ht]
      simp [htake]
  · by_cases ht : limitTruthy limit
    · refine ⟨(storage.take k).drop (limit.getD 0), ?_⟩
      simp [load_all_calls, ht]
    · refine ⟨[], ?_⟩
      simp [load_all_calls, ht]
  · simp [load_all_calls]

/-- Claim C10, witness for `load_all_calls_limit_truncates`: two records,
limit 1 — only the first is cached and later unlimited calls still see one
record. -/
theorem load_all_calls_limit_truncates_witness :
    (1 ≤ 1 ∧ 1 < ([demoCallA, demoCallB] : List Call).length)
  ∧ (load_all_calls [demoCallA, demoCallB] ⟨none⟩ (some 1)).1 = [demoCallA] :=
  ⟨⟨by decide, by decide⟩, by
    have h := load_all_calls_limit_truncates [demoCallA, demoCallB] 1
      (by decide) (by decide) [] none
    simpa using h.1⟩

/-! ## Claim C3: `_parse_time_period` -/

/-- Claim C3: in `src/mcp_orchestrator.py` the default-window block of
`_parse_time_period` is commented out, so the function raises instead of
degrading: with `start`/`end` missing it raises `UnboundLocalError` at the
final `return` (both orders), and with a malformed date string
`datetime.fromisoformat` raises `ValueError`.  The colab variant implements
the documented behaviour: missing values fall back to the trailing 30-day
window anchored on "now" and the description defaults to the formatted range
(evaluated here at `now = 2026-10-12`). -/
theorem mcpParseTimePeriod_raises :
    mcpParseTimePeriod ⟨none, none, ""⟩ = .error .nameError
  ∧ mcpParseTimePeriod ⟨some "июнь", some "2024-06-30", "лето"⟩ = .error .valueError
  ∧ mcpParseTimePeriod ⟨some "2024-01-01", none, "начало года"⟩ = .error .nameError
  ∧ colabParseTimePeriod ⟨2026, 10, 12, 0⟩ ⟨none, none, ""⟩
      = ⟨⟨2026, 9, 12, 0⟩, ⟨2026, 10, 12, 0⟩, "с 12.09.2026 по 12.10.2026"⟩
  ∧ colabParseTimePeriod ⟨2026, 10, 12, 0⟩ ⟨some "мусор", some "2024-19-99", "x"⟩
      = ⟨⟨2026, 9, 12, 0⟩, ⟨2026, 10, 12, 0⟩, "x"⟩ :=
  ⟨rfl, rfl, rfl, rfl, rfl⟩

/-! ## Claim C6: `_compare_tags` null padding -/

/-- Claim C6: when fewer than two tags are supplied, `_compare_tags` pads with
`None` — but `_count_by_tag` then evaluates `None.lower()` as soon as some
call tag fails to match the first target, raising `AttributeError` instead of
returning normally.  The ratio half of the claim does hold on the two-tag
path: `ratio = 0` when `count(tag2) = 0`, with no division error. -/
theorem compareTags_padding_crash :
    compareTags [c6Call] ["zzz_no_match"] = .error .attributeError
  ∧ compareTags [c6Call] ["долг", "zzz_no_match"]
      = .ok ⟨(some "долг", 1), (some "zzz_no_match", 0), 1, 0⟩
  ∧ compareTags [] ["только_один"]
      = .ok ⟨(some "только_один", 0), (none, 0), 0, 0⟩ :=
  ⟨rfl, rfl, rfl⟩

/-! ### Lemmas about the stable insertion sort `sortBy` -/

/-- Membership through insertion. -/
theorem mem_insBy (le : α → α → Bool) (x : α) (l : List α) (a : α) :
    a ∈ insBy le x l ↔ a = x ∨ a ∈ l := by
  induction l with
  | nil => simp [insBy]
  | cons y ys ih =>
    by_cases hxy : le x y = true
    · simp [insBy, hxy]
    · simp [insBy, hxy, ih]
      tauto

/-- Insertion produces a permutation of consing. -/
theorem perm_insBy (le : α → α → Bool) (x : α) (l : List α) :
    (insBy le x l).Perm (x :: l) := by
  induction l with
  | nil => simp [insBy]
  | cons y ys ih =>
    by_cases hxy : le x y = true
    · simp [insBy, hxy]
    · simp only [insBy, hxy, Bool.false_eq_true, if_neg, if_false]
      exact (ih.cons y).trans (List.Perm.swap x y ys)

/-- The sort is a permutation. -/
theorem perm_sortBy (le : α → α → Bool) (l : List α) : (sortBy le l).Perm l := by
  induction l with
  | nil => simp [sortBy]
  | cons x xs ih => exact (perm_insBy le x (sortBy le xs)).trans (ih.cons x)

/-- Insertion preserves sortedness, given a total transitive comparison. -/
theorem pairwise_insBy (le : α → α → Bool)
    (htot : ∀ a b, le a b = true ∨ le b a = true)
    (htrans : ∀ a b c, le a b = true → le b c = true → le a c = true)
    (x : α) (l : List α) (h : l.Pairwise (fun a b => le a b = true)) :
    (insBy le x l).Pairwise (fun a b => le a b = true) := by
  induction l with
  | nil => simp [insBy]
  | cons y ys ih =>
    rw [List.pairwise_cons] at h
    obtain ⟨hy, hys⟩ := h
    by_cases hxy : le x y = true
    · simp only [insBy, hxy, if_true, List.pairwise_cons]
      refine ⟨?_, ?_⟩
      · intro a ha
        rcases List.mem_cons.mp ha with rfl | ha
        · exact hxy
        · exact htrans x y a hxy (hy a ha)
      · exact ⟨hy, hys⟩
    · simp only [insBy, hxy, Bool.false_eq_true, if_neg, if_false, List.pairwise_cons]
      refine ⟨?_, ih hys⟩
      intro a ha
      rcases (mem_insBy le x ys a).mp ha with rfl | ha
      · rcases htot a y with h1 | h1
        · exact absurd h1 hxy
        · exact h1
      · exact hy a ha

/-- `sortBy` sorts, given a total transitive comparison. -/
theorem pairwise_sortBy (le : α → α → Bool)
    (htot : ∀ a b, le a b = true ∨ le b a = true)
    (htrans : ∀ a b c, le a b = true → le b c = true → le a c = true)
    (l : List α) : (sortBy le l).Pairwise (fun a b => le a b = true) := by
  induction l with
  | nil => simp [sortBy]
  | cons x xs ih => exact pairwise_insBy le htot htrans x _ ih

/-- Inserting an element the filter rejects does not change the filter. -/
theorem filter_insBy_neg (p : α → Bool) (le : α → α → Bool) (x : α) (l : List α)
    (hx : p x = false) :
    (insBy le x l).filter p = l.filter p := by
  induction l with
  | nil => simp [insBy, hx]
  | cons y ys ih =>
    by_cases hxy : le x y = true
    · simp [insBy, hxy, List.filter_cons, hx]
    · simp only [insBy, hxy, Bool.false_eq_true, if_neg, if_false, List.filter_cons]
      cases hpy : p y <;> simp [ih]

/-- Inserting an element the filter keeps, when every element it jumps over is
rejected, prepends it to the filter: this is the stability of the insertion. -/
theorem filter_insBy_pos (p : α → Bool) (le : α → α → Bool) (x : α) (l : List α)
    (hx : p x = true)
    (hskip : ∀ y ∈ l, le x y = false → p y = false) :
    (insBy le x l).filter p = x :: l.filter p := by
  induction l with
  | nil => simp [insBy, hx]
  | cons y ys ih =>
    by_cases hxy : le x y = true
    · simp [insBy, hxy, List.filter_cons, hx]
    · have hpy : p y = false := hskip y (by simp) (by simpa using hxy)
      simp only [insBy, hxy, Bool.false_eq_true, if_neg, if_false, List.filter_cons, hpy]
      exact ih (fun z hz h => hskip z (by simp [hz]) h)

/-- Stability of `sortBy`: elements the filter keeps, when any two kept
elements compare `le` both ways, appear in the sorted output in their original
order. -/
theorem filter_sortBy (p : α → Bool) (le : α → α → Bool)
    (hcompat : ∀ a b, p a = true → p b = true → le a b = true)
    (l : List α) : (sortBy le l).filter p = l.filter p := by
  induction l with
  | nil => simp [sortBy]
  | cons x xs ih =>
    simp only [sortBy]
    cases hx : p x with
    | false =>
      rw [filter_insBy_neg p le x _ hx, ih]
      simp [List.filter_cons, hx]
    | true =>
      rw [filter_insBy_pos p le x _ hx ?side, ih]
      · simp [List.filter_cons, hx]
      case side =>
        intro y _ hxy
        cases hpy : p y with
        | false => rfl
        | true => exact absurd (hcompat x y hx hpy) (by simp [hxy])

/-! ### Key-set lemmas for the counting dicts -/

/-- A bump keeps the key list, appending the key at the end on first use. -/
theorem keys_bumpKey (l : List (String × Nat)) (j : String) :
    (bumpKey l j).map Prod.fst
      = if j ∈ l.map Prod.fst then l.map Prod.fst
        else l.map Prod.fst ++ [j] := by
  induction l with
  | nil => simp [bumpKey]
  | cons p rest ih =>
    obtain ⟨a, v⟩ := p
    by_cases haj : a = j
    · simp [bumpKey, haj]
    · have hne : (a == j) = false := by simp [haj]
      have hja : ¬ j = a := fun h => haj h.symm
      simp only [bumpKey, hne, Bool.false_eq_true, if_neg, if_false, List.map_cons, ih]
      by_cases hj : j ∈ rest.map Prod.fst
      · simp [hj, List.mem_cons, hja]
      · simp [hj, List.mem_cons, hja]

/-- Bumping preserves distinctness of the keys. -/
theorem nodupKeys_bumpKey (l : List (String × Nat)) (j : String)
    (h : (l.map Prod.fst).Nodup) : ((bumpKey l j).map Prod.fst).Nodup := by
  rw [keys_bumpKey]
  by_cases hj : j ∈ l.map Prod.fst
  · simpa [hj] using h
  · simp only [hj, if_neg, if_false]
    rw [List.nodup_append]
    refine ⟨h, List.nodup_singleton j, ?_⟩
    intro a ha hmem
    rcases List.mem_singleton.mp hmem with rfl
    exact hj ha

/-- Folding bumps preserves distinctness of the keys. -/
theorem nodupKeys_foldl_bumpKey (ks : List String) (l0 : List (String × Nat))
    (h : (l0.map Prod.fst).Nodup) :
    (((ks.foldl bumpKey l0)).map Prod.fst).Nodup := by
  induction ks generalizing l0 with
  | nil => simpa using h
  | cons j ks ih => exact ih _ (nodupKeys_bumpKey l0 j h)

/-- In a dict with distinct keys, a member's value is its lookup. -/
theorem lookup_eq_of_mem_nodup (l : List (String × Nat)) (k : String) (v : Nat)
    (hmem : (k, v) ∈ l) (hnd : (l.map Prod.fst).Nodup) : lookupNat k l = v := by
  induction l with
  | nil => cases hmem
  | cons p rest ih =>
    obtain ⟨a, w⟩ := p
    rcases List.mem_cons.mp hmem with heq | hmem2
    · obtain ⟨h1, h2⟩ := Prod.mk.injEq .. ▸ heq
      subst h1
      subst h2
      simp [lookupNat, List.find?_cons]
    · have hk : k ∈ rest.map Prod.fst :=
        List.mem_map.mpr ⟨(k, v), hmem2, rfl⟩
      have hna : a ∉ rest.map Prod.fst := (List.nodup_cons.mp hnd).1
      have hak : (a == k) = false := by
        simp only [beq_eq_false_iff_ne, ne_eq]
        intro h
        exact hna (h ▸ hk)
      simp only [lookupNat, List.find?_cons, hak] at ih ⊢
      exact ih hmem2 (List.nodup_cons.mp hnd).2

/-! ## Claim C7: `_top_n_tags` -/

/-- `_top_n_tags`' `Counter` is one fold over the stream of all tag
occurrences. -/
theorem tallyTags_eq_foldl_flatten (calls : List Call) :
    tallyTags calls = ((calls.map Call.tags).flatten).foldl bumpKey [] := by
  rw [tallyTags, List.foldl_flatten, List.foldl_map]

/-- An entry of the tally holds the literal occurrence count of its tag. -/
theorem mem_tallyTags_count (calls : List Call) (p : String × Nat)
    (hmem : p ∈ tallyTags calls) :
    p.2 = ((calls.map Call.tags).flatten).count p.1 := by
  obtain ⟨k, v⟩ := p
  have hnd : ((tallyTags calls).map Prod.fst).Nodup := by
    rw [tallyTags_eq_foldl_flatten]
    exact nodupKeys_foldl_bumpKey _ _ (by simp)
  have := lookup_eq_of_mem_nodup _ _ _ hmem hnd
  rw [tallyTags_eq_foldl_flatten] at this
  rw [lookup_foldl_bumpKey] at this
  simpa [lookupNat] using this.symm

/-- Claim C7: `_top_n_tags` counts every literal tag occurrence with no fuzzy
merging (each returned entry's count is the occurrence count of exactly that
string), returns at most `n` entries in descending count order, and among
entries with equal counts preserves first-encounter order: the count-`c`
entries of the output are an initial segment of the count-`c` entries of the
insertion-ordered (first-encounter-ordered) tally. -/
theorem topNTags_spec (calls : List Call) (n : Nat) :
    (topNTags calls n).length ≤ n
  ∧ (topNTags calls n).Pairwise (fun p q => q.2 ≤ p.2)
  ∧ (∀ p, p ∈ topNTags calls n →
      p.2 = ((calls.map Call.tags).flatten).count p.1)
  ∧ (∀ c : Nat, ∃ rest, (tallyTags calls).filter (fun p => p.2 == c)
      = (topNTags calls n).filter (fun p => p.2 == c) ++ rest) := by
  have htot : ∀ a b : String × Nat, countGe a b = true ∨ countGe b a = true := by
    intro a b
    simp only [countGe, decide_eq_true_eq]
    omega
  have htrans : ∀ a b c : String × Nat,
      countGe a b = true → countGe b c = true → countGe a c = true := by
    intro a b c
    simp only [countGe, decide_eq_true_eq]
    omega
  refine ⟨?_, ?_, ?_, ?_⟩
  · exact List.length_take_le n _
  · have hp := pairwise_sortBy countGe htot htrans (tallyTags calls)
    have := hp.sublist (List.take_sublist n _)
    exact this.imp (fun h => by simpa [countGe] using h)
  · intro p hp
    have hmem : p ∈ sortBy countGe (tallyTags calls) :=
      List.mem_of_mem_take hp
    have : p ∈ tallyTags calls := (perm_sortBy countGe _).mem_iff.mp hmem
    exact mem_tallyTags_count calls p this
  · intro c
    refine ⟨((sortBy countGe (tallyTags calls)).drop n).filter
      (fun p => p.2 == c), ?_⟩
    have hstable := filter_sortBy (fun p => p.2 == c) countGe
      (fun a b ha hb => by
        simp only [beq_iff_eq] at ha hb
        simp [countGe, ha, hb]) (tallyTags calls)
    rw [← hstable]
    conv_lhs => rw [← List.take_append_drop n (sortBy countGe (tallyTags calls))]
    rw [List.filter_append]
    rfl

/-- Claim C7, witness for `topNTags_spec`: a tied tag inside the top-2. -/
theorem topNTags_spec_witness :
    (("a", 2) ∈ topNTags tieCalls 2)
  ∧ (("a", 2) : String × Nat).2
      = ((tieCalls.map Call.tags).flatten).count ("a", 2).1 :=
  ⟨by decide, (topNTags_spec tieCalls 2).2.2.1 _ (by decide)⟩

/-! ### The string order used by `sorted(period_counts.items())` -/

/-- Characters with equal code points are equal. -/
theorem char_eq_of_toNat_eq {a b : Char} (h : a.toNat = b.toNat) : a = b :=
  Char.eq_of_val_eq (UInt32.ext h)

/-- Transitivity of the code-point lexicographic order. -/
theorem clLtB_trans (a : List Char) : ∀ b c : List Char,
    clLtB a b = true → clLtB b c = true → clLtB a c = true := by
  induction a with
  | nil =>
    intro b c h1 h2
    cases c with
    | nil =>
      cases b with
      | nil => simp [clLtB] at h1
      | cons _ _ => simp [clLtB] at h2
    | cons _ _ => simp [clLtB]
  | cons x xs ih =>
    intro b c h1 h2
    cases b with
    | nil => simp [clLtB] at h1
    | cons y ys =>
      cases c with
      | nil => simp [clLtB] at h2
      | cons z zs =>
        simp only [clLtB] at h1 h2 ⊢
        by_cases hxy : x.toNat < y.toNat
        · by_cases hyz : y.toNat < z.toNat
          · simp [show x.toNat < z.toNat by omega]
          · by_cases hzy : z.toNat < y.toNat
            · simp [hyz, hzy] at h2
            · simp [show x.toNat < z.toNat by omega]
        · by_cases hyx : y.toNat < x.toNat
          · simp [hxy, hyx] at h1
          · simp only [hxy, hyx, if_neg, if_false] at h1
            by_cases hyz : y.toNat < z.toNat
            · simp [show x.toNat < z.toNat by omega]
            · by_cases hzy : z.toNat < y.toNat
              · simp [hyz, hzy] at h2
              · simp only [hyz, hzy, if_neg, if_false] at h2
                have hxz1 : ¬ x.toNat < z.toNat := by omega
                have hxz2 : ¬ z.toNat < x.toNat := by omega
                simp [hxz1, hxz2, ih ys zs h1 h2]

/-- Connectivity: two lists not below each other are equal. -/
theorem clLtB_conn (a : List Char) : ∀ b : List Char,
    clLtB a b = false → clLtB b a = false → a = b := by
  induction a with
  | nil =>
    intro b h1 _
    cases b with
    | nil => rfl
    | cons _ _ => simp [clLtB] at h1
  | cons x xs ih =>
    intro b h1 h2
    cases b with
    | nil => simp [clLtB] at h2
    | cons y ys =>
      simp only [clLtB] at h1 h2
      by_cases hxy : x.toNat < y.toNat
      · simp [hxy] at h1
      · by_cases hyx : y.toNat < x.toNat
        · simp [hyx] at h2
        · have hx : x = y := char_eq_of_toNat_eq (by omega)
          simp only [hxy, hyx, if_neg, if_false] at h1 h2
          rw [hx, ih ys h1 h2]

/-- Strings not below each other are equal. -/
theorem str_eq_of_not_lt {a b : String} (h1 : strLtB a b = false)
    (h2 : strLtB b a = false) : a = b := by
  have h := clLtB_conn a.data b.data h1 h2
  cases a
  cases b
  exact congrArg String.mk h

/-- The pair comparison of `sorted` is total. -/
theorem keyLe_total (p q : String × Nat) : keyLe p q = true ∨ keyLe q p = true := by
  by_cases h1 : strLtB p.1 q.1 = true
  · left
    simp [keyLe, h1]
  · by_cases h2 : strLtB q.1 p.1 = true
    · right
      simp [keyLe, h2]
    · left
      have heq := str_eq_of_not_lt (a := p.1) (b := q.1)
        (by simpa using h1) (by simpa using h2)
      simp [keyLe, heq]

/-- The pair comparison of `sorted` is transitive. -/
theorem keyLe_trans (p q r : String × Nat) :
    keyLe p q = true → keyLe q r = true → keyLe p r = true := by
  simp only [keyLe, Bool.or_eq_true, beq_iff_eq]
  rintro (h1 | h1) (h2 | h2)
  · exact Or.inl (clLtB_trans _ _ _ h1 h2)
  · rw [← h2]
    exact Or.inl h1
  · rw [h1]
    exact Or.inl h2
  · exact Or.inr (h1.trans h2)

/-! ## Claim C5: `_tag_trends` -/

/-- A bump keeps counts positive and keys inside `K`. -/
theorem bumpKey_values (K : String → Prop) (kc : List (String × Nat)) (j : String)
    (h : ∀ x ∈ kc, 1 ≤ x.2 ∧ K x.1) (hj : K j) :
    ∀ x ∈ bumpKey kc j, 1 ≤ x.2 ∧ K x.1 := by
  induction kc with
  | nil =>
    intro x hx
    simp only [bumpKey, List.mem_singleton] at hx
    subst hx
    exact ⟨Nat.le_refl 1, hj⟩
  | cons p rest ih =>
    obtain ⟨a, v⟩ := p
    by_cases haj : a = j
    · have hb : bumpKey ((a, v) :: rest) j = (a, v + 1) :: rest := by
        simp [bumpKey, haj]
      rw [hb]
      intro x hx
      rcases List.mem_cons.mp hx with rfl | hx
      · exact ⟨by omega, (h (a, v) (by simp)).2⟩
      · exact h x (by simp [hx])
    · have hb : bumpKey ((a, v) :: rest) j = (a, v) :: bumpKey rest j := by
        simp [bumpKey, haj]
      rw [hb]
      intro x hx
      rcases List.mem_cons.mp hx with rfl | hx
      · exact h (a, v) (by simp)
      · exact ih (fun y hy => h y (by simp [hy])) x hx

/-- `bumpTrend` preserves the invariant when the bumped key satisfies `K`. -/
theorem bumpTrend_inv (K : String → Prop) (tr : List (String × List (String × Nat)))
    (t k : String) (htr : TrendsInv K tr) (hk : K k) :
    TrendsInv K (bumpTrend tr t k) := by
  induction tr with
  | nil =>
    intro p hp
    simp only [bumpTrend, List.mem_singleton] at hp
    subst hp
    exact ⟨by
      intro x hx
      rcases List.mem_singleton.mp hx with rfl
      exact ⟨Nat.le_refl 1, hk⟩, by simp⟩
  | cons q rest ih =>
    obtain ⟨t', kc⟩ := q
    by_cases ht' : t' = t
    · have hb : bumpTrend ((t', kc) :: rest) t k = (t', bumpKey kc k) :: rest := by
        simp [bumpTrend, ht']
      rw [hb]
      intro p hp
      rcases List.mem_cons.mp hp with rfl | hp
      · refine ⟨bumpKey_values K kc k (htr (t', kc) (by simp)).1 hk, ?_⟩
        exact nodupKeys_bumpKey kc k (htr (t', kc) (by simp)).2
      · exact htr p (by simp [hp])
    · have hb : bumpTrend ((t', kc) :: rest) t k
          = (t', kc) :: bumpTrend rest t k := by
        simp [bumpTrend, ht']
      rw [hb]
      intro p hp
      rcases List.mem_cons.mp hp with rfl | hp
      · exact htr (t', kc) (by simp)
      · exact ih (fun q hq => htr q (by simp [hq])) p hp

/-- The per-call tag loop preserves the invariant. -/
theorem foldl_trendTagStep_inv (K : String → Prop) (ts : List String) (key : String)
    (tags : List String) (tr : List (String × List (String × Nat)))
    (htr : TrendsInv K tr) (hk : K key) :
    TrendsInv K (tags.foldl (trendTagStep ts key) tr) := by
  induction tags generalizing tr with
  | nil => exact htr
  | cons tag tags ih =>
    rw [List.foldl_cons]
    apply ih
    unfold trendTagStep
    cases ts.find? (fun target => fuzzyMatch target tag) with
    | none => exact htr
    | some target => exact bumpTrend_inv K tr target key htr hk

/-- The call loop preserves the invariant, every bucket key being the grouping
key of some processed call. -/
theorem foldl_trendCallStep_inv (ts : List String) (g : String)
    (calls0 : List Call) (calls : List Call)
    (tr : List (String × List (String × Nat)))
    (hsub : ∀ c ∈ calls, c ∈ calls0)
    (htr : TrendsInv (fun k => ∃ c ∈ calls0, k = periodKey g c.call_date) tr) :
    TrendsInv (fun k => ∃ c ∈ calls0, k = periodKey g c.call_date)
      (calls.foldl (trendCallStep ts g) tr) := by
  induction calls generalizing tr with
  | nil => exact htr
  | cons c calls ih =>
    rw [List.foldl_cons]
    refine ih _ (fun c' hc' => hsub c' (List.mem_cons.mpr (Or.inr hc'))) ?_
    unfold trendCallStep
    exact foldl_trendTagStep_inv _ ts _ c.tags tr htr
      ⟨c, hsub c (List.mem_cons.mpr (Or.inl rfl)), rfl⟩

/-- Claim C5: `_tag_trends` returns the empty mapping when `target_tags` or
`calls` is empty; and per emitted target every bucket has count at least 1 (no
zero-count buckets), every bucket key is the grouping key — `YYYY-MM`,
ISO `YYYY-Www` or `YYYY-MM-DD` as `grouping` selects — of some call, and the
buckets are sorted strictly ascending by period key. -/
theorem tagTrends_spec (calls : List Call) (target_tags : List String)
    (grouping : String) :
    tagTrends calls [] grouping = []
  ∧ tagTrends [] target_tags grouping = []
  ∧ (∀ t kc, (t, kc) ∈ tagTrends calls target_tags grouping →
       (∀ k v, (k, v) ∈ kc →
          1 ≤ v ∧ ∃ c ∈ calls, k = periodKey grouping c.call_date)
     ∧ kc.Pairwise (fun p q => strLtB p.1 q.1 = true)) := by
  refine ⟨rfl, by cases target_tags <;> rfl, ?_⟩
  intro t kc hmem
  by_cases htt : target_tags.isEmpty
  · rw [show tagTrends calls target_tags grouping = [] by
      simp [tagTrends, htt]] at hmem
    cases hmem
  · rw [show tagTrends calls target_tags grouping
        = (calls.foldl (trendCallStep target_tags grouping) []).map
            (fun p => (p.1, sortBy keyLe p.2)) by
      simp [tagTrends, htt]] at hmem
    obtain ⟨⟨t0, kc0⟩, hmem0, heq⟩ := List.mem_map.mp hmem
    have heq' : (t0, sortBy keyLe kc0) = (t, kc) := heq
    have heq2 : sortBy keyLe kc0 = kc := congrArg Prod.snd heq'
    have hinv := foldl_trendCallStep_inv target_tags grouping calls calls []
      (fun c hc => hc) (by intro p hp; cases hp)
    have hq := hinv (t0, kc0) hmem0
    constructor
    · intro k v hkv
      have hkv0 : (k, v) ∈ kc0 := by
        rw [← heq2] at hkv
        exact (perm_sortBy keyLe kc0).mem_iff.mp hkv
      exact hq.1 (k, v) hkv0
    · rw [← heq2]
      have hpw := pairwise_sortBy keyLe keyLe_total keyLe_trans kc0
      have hndk : ((sortBy keyLe kc0).map Prod.fst).Nodup :=
        (((perm_sortBy keyLe kc0).map Prod.fst).nodup_iff).mpr hq.2
      have hndk' : ((sortBy keyLe kc0).map Prod.fst).Pairwise (· ≠ ·) := hndk
      have hne : (sortBy keyLe kc0).Pairwise (fun p q => p.1 ≠ q.1) :=
        List.pairwise_map.mp hndk'
      refine (hpw.and hne).imp ?_
      intro a b hab
      obtain ⟨h1, h2⟩ := hab
      have h1' : strLtB a.1 b.1 = true ∨ (a.1 == b.1) = true := by
        simpa only [keyLe, Bool.or_eq_true] using h1
      rcases h1' with hlt | heqq
      · exact hlt
      · exact absurd (beq_iff_eq.mp heqq) h2

/-- Claim C5, witness for `tagTrends_spec`: the two-call January/February
scenario, grouped by month, yields one-count buckets in ascending `YYYY-MM`
order; the theorem's sortedness conclusion is discharged at that bucket
list. -/
theorem tagTrends_spec_witness :
    (("долго_нет_ответа_на_заявку", [("2024-01", 1), ("2024-02", 1)])
      ∈ tagTrends [demoCallA, demoCallB] ["долго_нет_ответа_на_заявку"] "month")
  ∧ ([("2024-01", 1), ("2024-02", 1)] : List (String × Nat)).Pairwise
      (fun p q => strLtB p.1 q.1 = true) :=
  ⟨by decide, ((tagTrends_spec [demoCallA, demoCallB]
      ["долго_нет_ответа_на_заявку"] "month").2.2 "долго_нет_ответа_на_заявку"
      [("2024-01", 1), ("2024-02", 1)] (by decide)).2⟩

/-! ## Claim C4: `_count_by_tag` first-match counting -/

/-- Claim C4 (amended): every (call, tag) occurrence is scanned against the
targets in target-list order and contributes exactly one increment to the
first fuzzily matching target (and none to any other target; non-matching
occurrences contribute nothing): each target's counter is the number of
occurrences whose first match is that target, and the grand total of all
counters is the number of matched occurrences.  A call carrying the same tag
string several times contributes once per occurrence, not once per distinct
string. -/
theorem countByTag_first_match (calls : List Call) (target_tags : List String)
    (t : String) :
    lookupNat t (countByTag calls target_tags)
      = ((calls.map Call.tags).flatten.filter
          (fun tag => target_tags.find? (fun target => fuzzyMatch target tag)
            == some t)).length
  ∧ sumCounts (countByTag calls target_tags)
      = ((calls.map Call.tags).flatten.filterMap
          (fun tag => target_tags.find?
            (fun target => fuzzyMatch target tag))).length := by
  rw [countByTag_eq_foldl_flatten, foldl_countTagStep]
  constructor
  · rw [lookup_foldl_bumpKey]
    have h0 : lookupNat t [] = 0 := rfl
    rw [h0, Nat.zero_add]
    exact count_filterMap_firstMatch target_tags _ t
  · rw [sumCounts_foldl_bumpKey]
    simp [sumCounts]

/-- Claim C4, counterexample: a single call carrying the same tag string twice
contributes two increments to one target — more than "at most once per
distinct tag string it carries". -/
theorem countByTag_duplicate_tag_counterexample :
    countByTag [dupTagCall] ["погашение_долга"] = [("погашение_долга", 2)]
  ∧ dupTagCall.tags = ["погашение_долга", "погашение_долга"]
  ∧ ¬ (lookupNat "погашение_долга"
        (countByTag [dupTagCall] ["погашение_долга"]) ≤ 1) := by
  decide

/-! ## Claim C2: `execute_plan` computes every metric over the
inclusively-period-filtered calls -/

/-- Claim C2: when `execute_plan` returns, the period filter kept exactly the
calls with `start <= call_date <= end` (both boundaries inclusive, so a call
strictly outside the closed interval is excluded and a boundary call is kept),
and each of the four metrics is present iff requested and is computed over
exactly the filtered calls. -/
theorem executePlan_period_filter (allCalls : List Call) (plan : AnalysisPlan)
    (r : ExecResult) (h : executePlan allCalls plan = .ok r) :
    (∀ c, c ∈ filterCallsByPeriod allCalls plan.time_period ↔
        (c ∈ allCalls ∧ dtLeB plan.time_period.start c.call_date = true
          ∧ dtLeB c.call_date plan.time_period.stop = true))
  ∧ r.count_by_tag = (if MetricType.COUNT_BY_TAG ∈ plan.metrics
      then some (countByTag (filterCallsByPeriod allCalls plan.time_period)
        plan.target_tags)
      else none)
  ∧ r.tag_trends = (if MetricType.TAG_TRENDS ∈ plan.metrics
      then some (tagTrends (filterCallsByPeriod allCalls plan.time_period)
        plan.target_tags plan.grouping)
      else none)
  ∧ r.top_n_tags = (if MetricType.TOP_N_TAGS ∈ plan.metrics
      then some (topNTags (filterCallsByPeriod allCalls plan.time_period) 5)
      else none)
  ∧ (if MetricType.COMPARISON ∈ plan.metrics
      then ∃ cr, compareTags (filterCallsByPeriod allCalls plan.time_period)
            (comparisonTagsOf plan) = .ok cr ∧ r.comparison = some cr
      else r.comparison = none)
  ∧ r.summary_stats = some (SummaryStats.mk
      (filterCallsByPeriod allCalls plan.time_period).length
      plan.time_period.description (fmtRange plan.time_period))
  ∧ r.error = none := by
  have h' : (List.foldlM (applyMetric (filterCallsByPeriod allCalls plan.time_period)
        plan.target_tags (comparisonTagsOf plan) plan.grouping)
        ({} : ExecResult) plan.metrics) >>=
      (fun r1 => (Except.ok { r1 with summary_stats := some (SummaryStats.mk
          (filterCallsByPeriod allCalls plan.time_period).length
          plan.time_period.description (fmtRange plan.time_period)) } :
        Except PyErr ExecResult)) = .ok r := h
  cases hr1 : List.foldlM (applyMetric (filterCallsByPeriod allCalls plan.time_period)
      plan.target_tags (comparisonTagsOf plan) plan.grouping)
      ({} : ExecResult) plan.metrics with
  | error e =>
    rw [hr1] at h'
    cases h'
  | ok r1 =>
    rw [hr1] at h'
    have hr : r = { r1 with summary_stats := some (SummaryStats.mk
        (filterCallsByPeriod allCalls plan.time_period).length
        plan.time_period.description (fmtRange plan.time_period)) } := by
      injection h' with h''
      exact h''.symm
    obtain ⟨e1, e2, e3, e4, e5, e6⟩ := foldlM_applyMetric_spec _ _ _ _ _ _ _ hr1
    subst hr
    refine ⟨?_, by simpa using e1, by simpa using e2, by simpa using e3, ?_, rfl,
      by simpa using e5⟩
    · intro c
      constructor
      · intro hc
        have := List.mem_filter.mp hc
        exact ⟨this.1, by
          have hb := this.2
          simp only [Bool.and_eq_true] at hb
          exact hb.1, by
          have hb := this.2
          simp only [Bool.and_eq_true] at hb
          exact hb.2⟩
      · intro ⟨hmem, hs, he⟩
        exact List.mem_filter.mpr ⟨hmem, by simp [hs, he]⟩
    · by_cases hmem : MetricType.COMPARISON ∈ plan.metrics
      · simp only [hmem, if_true] at e4 ⊢
        exact ⟨e4.choose, e4.choose_spec.1, by simpa using e4.choose_spec.2⟩
      · simp only [hmem, if_false] at e4 ⊢
        simpa using e4

/-- Claim C2, witness for `executePlan_period_filter`: a two-call collection
where only the 2024 call survives the 2024 period filter. -/
theorem executePlan_period_filter_witness :
    executePlan [demoCallA, demoCallLate] demoPlan = .ok demoExecResult
  ∧ demoExecResult.count_by_tag = some [("долго_нет_ответа_на_заявку", 1)]
  ∧ demoExecResult.error = none :=
  ⟨by rfl, by
    have h := executePlan_period_filter [demoCallA, demoCallLate] demoPlan
      demoExecResult (by rfl)
    rw [h.2.1]
    rfl, by
    have h := executePlan_period_filter [demoCallA, demoCallLate] demoPlan
      demoExecResult (by rfl)
    exact h.2.2.2.2.2.2⟩

/-! ## Claim C8: `execute_plan` on an empty collection -/

/-- `_compare_tags` cannot raise on an empty call collection (the
`None.lower()` crash needs at least one tag occurrence to scan). -/
theorem compareTags_nil_ok (ct : List String) : ∃ c, compareTags [] ct = .ok c :=
  ⟨_, rfl⟩

/-- The metric dispatch loop always succeeds on an empty filtered collection. -/
theorem foldlM_applyMetric_nil_ok (tt ct : List String) (g : String)
    (ms : List MetricType) (r0 : ExecResult) :
    ∃ r, List.foldlM (applyMetric [] tt ct g) r0 ms = .ok r := by
  induction ms generalizing r0 with
  | nil => exact ⟨r0, rfl⟩
  | cons m ms ih =>
    cases m with
    | COMPARISON =>
      obtain ⟨c0, hc⟩ := compareTags_nil_ok ct
      obtain ⟨r, hr⟩ := ih { r0 with comparison := some c0 }
      refine ⟨r, ?_⟩
      rw [List.foldlM_cons]
      have hstep : applyMetric [] tt ct g r0 .COMPARISON
          = (.ok { r0 with comparison := some c0 } : Except PyErr ExecResult) := by
        simp only [applyMetric, hc]
        rfl
      rw [hstep]
      exact hr
    | COUNT_BY_TAG =>
      obtain ⟨r, hr⟩ := ih { r0 with count_by_tag := some (countByTag [] tt) }
      exact ⟨r, by rw [List.foldlM_cons]; exact hr⟩
    | TAG_TRENDS =>
      obtain ⟨r, hr⟩ := ih { r0 with tag_trends := some (tagTrends [] tt g) }
      exact ⟨r, by rw [List.foldlM_cons]; exact hr⟩
    | TOP_N_TAGS =>
      obtain ⟨r, hr⟩ := ih { r0 with top_n_tags := some (topNTags [] 5) }
      exact ⟨r, by rw [List.foldlM_cons]; exact hr⟩
    | SUMMARY_STATS =>
      obtain ⟨r, hr⟩ := ih r0
      exact ⟨r, by rw [List.foldlM_cons]; exact hr⟩

/-- Claim C8, counterexample: the `mcp_orchestrator.py` `execute_plan` on an
empty collection does NOT short-circuit — it computes the requested metrics
over zero calls and returns no error entry at all. -/
theorem executePlan_empty_no_error_entry :
    executePlan [] demoPlan = .ok emptyExecResult
  ∧ emptyExecResult.error = none
  ∧ emptyExecResult.count_by_tag = some [] := by
  exact ⟨rfl, rfl, rfl⟩

/-- Claim C8 (amended): the colab variant short-circuits on an empty collection
to `{error, summary_stats with total_calls = 0}` computing no metric, while the
`mcp_orchestrator.py` variant computes every requested metric over the empty
collection and returns `summary_stats` with `total_calls = 0` and no error
entry; neither raises. -/
theorem executePlan_empty_collection (plan : AnalysisPlan) :
    colabExecutePlan [] plan = .ok
      { error := some "Нет данных для анализа"
      , summary_stats := some (SummaryStats.mk 0 plan.time_period.description
          (fmtRange plan.time_period)) }
  ∧ ∃ r, executePlan [] plan = .ok r
      ∧ r.error = none
      ∧ r.summary_stats = some (SummaryStats.mk 0 plan.time_period.description
          (fmtRange plan.time_period))
      ∧ r.count_by_tag = (if MetricType.COUNT_BY_TAG ∈ plan.metrics
          then some [] else none) := by
  constructor
  · rfl
  · obtain ⟨r1, hr1⟩ := foldlM_applyMetric_nil_ok plan.target_tags
      (comparisonTagsOf plan) plan.grouping plan.metrics {}
    refine ⟨{ r1 with summary_stats := some (SummaryStats.mk 0
        plan.time_period.description (fmtRange plan.time_period)) }, ?_, ?_, rfl, ?_⟩
    · show (List.foldlM (applyMetric (filterCallsByPeriod [] plan.time_period)
          plan.target_tags (comparisonTagsOf plan) plan.grouping)
          ({} : ExecResult) plan.metrics) >>=
        (fun r2 => (Except.ok { r2 with summary_stats := some (SummaryStats.mk
            (filterCallsByPeriod [] plan.time_period).length
            plan.time_period.description (fmtRange plan.time_period)) } :
          Except PyErr ExecResult)) = _
      rw [show filterCallsByPeriod [] plan.time_period = [] from rfl] at *
      rw [hr1]
      rfl
    · obtain ⟨_, _, _, _, e5, _⟩ := foldlM_applyMetric_spec _ _ _ _ _ _ _ hr1
      simpa using e5
    · obtain ⟨e1, _, _, _, _, _⟩ := foldlM_applyMetric_spec _ _ _ _ _ _ _ hr1
      simpa using e1

end Phonecall
